import Mathlib

/-!
Shallow embedding of the KV unified-storage backend
(pkg/storage/unified/resource/storage_backend.go): the write path, point read,
current-state list, history/trash listing and resource stats.  Out-of-scope
collaborators (the metadata-store lookups, the document builder, fallible KV
saves) are passed in as explicit parameters standing for their outcomes, or
are modelled from the specification where noted on the definition.
-/

/-- Action recorded with every write (DataActionCreated / Updated / Deleted). -/
inductive DataAction where
  | created
  | updated
  | deleted
  deriving DecidableEq, Repr

/-- Change types of resourcepb.WatchEvent; anything outside the three known
ones is rejected by WriteEvent with an invalid-event-type error. -/
inductive WatchEventType where
  | added
  | modified
  | deleted
  | unknown
  deriving DecidableEq, Repr

/-- Errors surfaced by the underlying stores: ErrNotFound, or any other
store/transport failure carrying a message. -/
inductive StoreError where
  | notFound
  | internalErr (msg : String)
  deriving DecidableEq, Repr

/-- Key of a DataRecord: (namespace, group, resource, name, resource version,
action), mirroring DataKey in the source. -/
structure DataKey where
  ns : String
  group : String
  resource : String
  name : String
  resourceVersion : Int
  action : DataAction
  deriving DecidableEq, Repr

/-- Key of a MetaRecord: a DataKey plus the denormalized folder, mirroring
MetaDataKey in the source. -/
structure MetaDataKey where
  ns : String
  group : String
  resource : String
  name : String
  resourceVersion : Int
  action : DataAction
  folder : String
  deriving DecidableEq, Repr

/-- One appended event-log entry, mirroring Event in the source. -/
structure EventRecord where
  ns : String
  group : String
  resource : String
  name : String
  resourceVersion : Int
  action : DataAction
  folder : String
  previousRV : Int
  deriving DecidableEq, Repr

/-- The three stores the backend writes to.  Each store is append-only in the
write path, so a list capturing insertion order is a faithful state. -/
structure BackendState where
  dataRecords : List (DataKey × String)
  metaRecords : List (MetaDataKey × String)
  eventRecords : List EventRecord
  deriving DecidableEq, Repr

/-- An incoming write request (WriteEvent in the source): change type, the
four-part key, the payload bytes, the folder of the object and the previous
resource version supplied by the caller. -/
structure WriteEventReq where
  type : WatchEventType
  ns : String
  group : String
  resource : String
  name : String
  value : String
  folder : String
  previousRV : Int
  deriving DecidableEq, Repr

/-- The distinct error returns of WriteEvent, in source order: validation
failure, the two outcomes of the create existence check, an invalid change
type, document-builder failure, and the three per-store save failures. -/
inductive WriteError where
  | invalidEvent (msg : String)
  | alreadyExists
  | checkFailed (e : StoreError)
  | invalidType
  | buildFailed (msg : String)
  | dataSaveFailed (e : StoreError)
  | metaSaveFailed (e : StoreError)
  | eventSaveFailed (e : StoreError)
  deriving DecidableEq, Repr

/-- The persistence phase of WriteEvent (storage_backend.go lines 90-142):
build the search document, then save the DataRecord, the MetaRecord (carrying
the built document and the folder) and the EventRecord (carrying the callers
PreviousRV), in that order, stopping at the first failure.  buildDoc stands
for the outcome of the external DocumentBuilder.BuildDocument call and
dataSaveErr / metaSaveErr / eventSaveErr for the outcomes of the three
fallible KV saves (a failed save persists nothing; a failed step returns
without touching later stores and without rolling back earlier ones). -/
def writePersist (rv : Int) (action : DataAction)
    (buildDoc : Except String String)
    (dataSaveErr metaSaveErr eventSaveErr : Option StoreError)
    (ev : WriteEventReq) (st : BackendState) : Except WriteError Int × BackendState :=
  match buildDoc with
  | .error m => (.error (.buildFailed m), st)
  | .ok doc =>
    match dataSaveErr with
    | some e => (.error (.dataSaveFailed e), st)
    | none =>
      let dkey : DataKey := ⟨ev.ns, ev.group, ev.resource, ev.name, rv, action⟩
      let st1 := { st with dataRecords := st.dataRecords ++ [(dkey, ev.value)] }
      match metaSaveErr with
      | some e => (.error (.metaSaveFailed e), st1)
      | none =>
        let mkey : MetaDataKey := ⟨ev.ns, ev.group, ev.resource, ev.name, rv, action, ev.folder⟩
        let st2 := { st1 with metaRecords := st1.metaRecords ++ [(mkey, doc)] }
        match eventSaveErr with
        | some e => (.error (.eventSaveFailed e), st2)
        | none =>
          let erec : EventRecord := ⟨ev.ns, ev.group, ev.resource, ev.name, rv, action, ev.folder, ev.previousRV⟩
          (.ok rv, { st2 with eventRecords := st2.eventRecords ++ [erec] })

/-- WriteEvent (storage_backend.go lines 56-143).  validErr is the outcome of
event.Validate(), rv the freshly minted snowflake resource version, and
getLatest the outcome of metaStore.GetLatestResourceKey for the event key
(consulted only for Added).  The remaining parameters are threaded to the
persistence phase. -/
def writeEvent (validErr : Option String) (rv : Int)
    (getLatest : Except StoreError MetaDataKey)
    (buildDoc : Except String String)
    (dataSaveErr metaSaveErr eventSaveErr : Option StoreError)
    (ev : WriteEventReq) (st : BackendState) : Except WriteError Int × BackendState :=
  match validErr with
  | some m => (.error (.invalidEvent m), st)
  | none =>
    match ev.type with
    | .added =>
      match getLatest with
      | .ok _ => (.error .alreadyExists, st)
      | .error e =>
        if e = .notFound then
          writePersist rv .created buildDoc dataSaveErr metaSaveErr eventSaveErr ev st
        else
          (.error (.checkFailed e), st)
    | .modified => writePersist rv .updated buildDoc dataSaveErr metaSaveErr eventSaveErr ev st
    | .deleted => writePersist rv .deleted buildDoc dataSaveErr metaSaveErr eventSaveErr ev st
    | .unknown => (.error (.invalidType), st)

/-- The DataAction recorded for each accepted change type (the switch at
storage_backend.go lines 63-88); unknown types are rejected. -/
def actionFor : WatchEventType → Option DataAction
  | .added => some .created
  | .modified => some .updated
  | .deleted => some .deleted
  | .unknown => none

/-- C3: for a WriteEvent with change type Added, the create existence check
runs first: a successful latest-record lookup fails the write with
AlreadyExists and leaves every store untouched; a lookup failure other than
NotFound is propagated (wrapped as a check failure) with every store
untouched; only a NotFound lookup lets the write proceed to the persistence
phase. -/
theorem c3_added_create_check (rv : Int) (getLatest : Except StoreError MetaDataKey)
    (buildDoc : Except String String) (de me ee : Option StoreError)
    (ev : WriteEventReq) (st : BackendState) (hty : ev.type = .added) :
    (∀ m, getLatest = .ok m →
      writeEvent none rv getLatest buildDoc de me ee ev st = (.error .alreadyExists, st)) ∧
    (∀ e, getLatest = .error e → e ≠ .notFound →
      writeEvent none rv getLatest buildDoc de me ee ev st = (.error (.checkFailed e), st)) ∧
    (getLatest = .error .notFound →
      writeEvent none rv getLatest buildDoc de me ee ev st =
        writePersist rv .created buildDoc de me ee ev st) := by
  refine ⟨?_, ?_, ?_⟩
  · intro m hm
    simp [writeEvent, hty, hm]
  · intro e he hne
    simp [writeEvent, hty, he, hne]
  · intro h
    simp [writeEvent, hty, h]

/-- Witness for C3 at a concrete input: a live latest record makes a create
fail with AlreadyExists and leaves the (empty) state unchanged. -/
theorem c3_added_create_check_witness :
    writeEvent none 7 (.ok ⟨"n", "g", "r", "x", 1, .created, "f"⟩) (.ok "d")
        none none none ⟨.added, "n", "g", "r", "x", "v", "f", 0⟩ ⟨[], [], []⟩ =
      (.error .alreadyExists, ⟨[], [], []⟩) :=
  (c3_added_create_check 7 _ _ none none none _ _ rfl).1 _ rfl

/-- C4: an acceptedWriteEvent (valid, with an admissible change type, and for
Added a NotFound existence check) with a successfully built document persists
the DataRecord, then the MetaRecord carrying the built document and folder,
then the EventRecord carrying the callers PreviousRV, all stamped with the
minted resource version rv; and if one of the three saves fails, the error is
returned while records written by the earlier steps stay in place (after a
MetaRecord save failure the DataRecord is still present; after an EventRecord
save failure both the DataRecord and the MetaRecord are still present). -/
theorem c4_persist_order_no_rollback (rv : Int) (a : DataAction)
    (getLatest : Except StoreError MetaDataKey) (doc : String)
    (de me ee : Option StoreError) (ev : WriteEventReq) (st : BackendState)
    (hact : actionFor ev.type = some a)
    (hadd : ev.type = .added → getLatest = .error .notFound) :
    (de = none → me = none → ee = none →
      writeEvent none rv getLatest (.ok doc) de me ee ev st =
        (.ok rv,
          ⟨st.dataRecords ++ [(⟨ev.ns, ev.group, ev.resource, ev.name, rv, a⟩, ev.value)],
           st.metaRecords ++ [(⟨ev.ns, ev.group, ev.resource, ev.name, rv, a, ev.folder⟩, doc)],
           st.eventRecords ++ [⟨ev.ns, ev.group, ev.resource, ev.name, rv, a, ev.folder, ev.previousRV⟩]⟩)) ∧
    (∀ e, de = some e →
      writeEvent none rv getLatest (.ok doc) de me ee ev st = (.error (.dataSaveFailed e), st)) ∧
    (∀ e, de = none → me = some e →
      writeEvent none rv getLatest (.ok doc) de me ee ev st =
        (.error (.metaSaveFailed e),
          ⟨st.dataRecords ++ [(⟨ev.ns, ev.group, ev.resource, ev.name, rv, a⟩, ev.value)],
           st.metaRecords, st.eventRecords⟩)) ∧
    (∀ e, de = none → me = none → ee = some e →
      writeEvent none rv getLatest (.ok doc) de me ee ev st =
        (.error (.eventSaveFailed e),
          ⟨st.dataRecords ++ [(⟨ev.ns, ev.group, ev.resource, ev.name, rv, a⟩, ev.value)],
           st.metaRecords ++ [(⟨ev.ns, ev.group, ev.resource, ev.name, rv, a, ev.folder⟩, doc)],
           st.eventRecords⟩)) := by
  have hpersist : writeEvent none rv getLatest (.ok doc) de me ee ev st =
      writePersist rv a (.ok doc) de me ee ev st := by
    cases hty : ev.type
    · simp [writeEvent, hty, hadd hty]
      simp [hty, actionFor] at hact
      simp [hact]
    · simp [hty, actionFor] at hact
      simp [writeEvent, hty, hact]
    · simp [hty, actionFor] at hact
      simp [writeEvent, hty, hact]
    · simp [hty, actionFor] at hact
  refine ⟨?_, ?_, ?_, ?_⟩
  · intro h1 h2 h3
    subst h1; subst h2; subst h3
    rw [hpersist]; simp [writePersist]
  · intro e h1
    subst h1
    rw [hpersist]; simp [writePersist]
  · intro e h1 h2
    subst h1; subst h2
    rw [hpersist]; simp [writePersist]
  · intro e h1 h2 h3
    subst h1; subst h2; subst h3
    rw [hpersist]; simp [writePersist]

/-- Witness for C4 at a concrete input: a failing MetaRecord save returns the
error while the DataRecord written by the first step is still present. -/
theorem c4_persist_order_no_rollback_witness :
    writeEvent none 9 (.error .notFound) (.ok "doc") none (some (.internalErr "boom")) none
        ⟨.added, "n", "g", "r", "x", "v", "f", 3⟩ ⟨[], [], []⟩ =
      (.error (.metaSaveFailed (.internalErr "boom")),
        ⟨[(⟨"n", "g", "r", "x", 9, .created⟩, "v")], [], []⟩) :=
  (c4_persist_order_no_rollback 9 .created (.error .notFound) "doc"
      none (some (.internalErr "boom")) none ⟨.added, "n", "g", "r", "x", "v", "f", 3⟩
      ⟨[], [], []⟩ rfl (fun _ => rfl)).2.2.1 _ rfl rfl

/-- Identity, or key-prefix, filter of a list request: namespace, group and
resource, with an empty name matching every name (ListRequestKey semantics). -/
structure ResourceIdent where
  ns : String
  group : String
  resource : String
  name : String
  deriving DecidableEq, Repr

/-- Whether a MetaRecord key falls under the key-prefix filter. -/
def prefMatch (pref : ResourceIdent) (k : MetaDataKey) : Bool :=
  decide (k.ns = pref.ns ∧ k.group = pref.group ∧ k.resource = pref.resource ∧
    (pref.name = "" ∨ k.name = pref.name))

/-- First-occurrence deduplication with an accumulator of already seen names;
keeps the store-defined order of first appearance. -/
def dedupAux (seen : List String) : List String → List String
  | [] => []
  | x :: rest => if x ∈ seen then dedupAux seen rest else x :: dedupAux (x :: seen) rest

/-- Names of the objects matching a key-prefix filter, in store order. -/
def namesOf (metaKeys : List MetaDataKey) (pref : ResourceIdent) : List String :=
  dedupAux [] ((metaKeys.filter (prefMatch pref)).map (fun k => k.name))

/-- Whether a MetaRecord key has exactly this object identity. -/
def identMatch (ns g r n : String) (k : MetaDataKey) : Bool :=
  decide (k.ns = ns ∧ k.group = g ∧ k.resource = r ∧ k.name = n)

/-- MetaRecords of one object visible at a revision: all of them when the
requested revision is not positive (meaning latest), otherwise those at or
below the requested revision. -/
def candidatesAt (metaKeys : List MetaDataKey) (ns g r n : String) (rv : Int) : List MetaDataKey :=
  metaKeys.filter (fun k => identMatch ns g r n k && decide (rv ≤ 0 ∨ k.resourceVersion ≤ rv))

/-- One step of a greatest-measure fold: keep the element with the strictly
greater measure, the earlier one winning ties. -/
def pickMaxBy {α : Type} (f : α → Int) (acc : Option α) (k : α) : Option α :=
  match acc with
  | none => some k
  | some j => if f j < f k then some k else some j

/-- The record with the greatest resource version, first one winning ties. -/
def maxByRV (l : List MetaDataKey) : Option MetaDataKey :=
  l.foldl (pickMaxBy (fun k => k.resourceVersion)) none

/-- Modelled from the spec: metadataStore resolution of one object at a
revision (GetResourceKeyAtRevision / the per-object step of
ListResourceKeysAtRevision, neither of which is under src/).  Per the spec,
at-RV resolution yields the MetaRecord whose RV is the greatest RV at or
below the requested RV (every RV when the request is 0, meaning latest), and
an object whose record so resolved is Deleted is not live, hence not found. -/
def resolveAtRevision (metaKeys : List MetaDataKey) (ns g r n : String) (rv : Int) :
    Option MetaDataKey :=
  match maxByRV (candidatesAt metaKeys ns g r n rv) with
  | none => none
  | some k => if k.action = .deleted then none else some k

/-- Modelled from the spec: metadataStore.ListResourceKeysAtRevision (not
under src/) scans the MetaRecords at a revision for a key-prefix filter in
stable store-defined order: for each matching object name in store order,
the record resolved at the revision, skipping objects not live there. -/
def listResourceKeysAtRevision (metaKeys : List MetaDataKey) (pref : ResourceIdent)
    (rv : Int) : List MetaDataKey :=
  (namesOf metaKeys pref).filterMap
    (fun n => resolveAtRevision metaKeys pref.ns pref.group pref.resource n rv)

/-- The continuation-token payload: start offset, the anchored list resource
version and the pinned sort direction (ContinueToken in the source). -/
structure ContinueToken where
  startOffset : Int
  resourceVersion : Int
  sortAscending : Bool
  deriving DecidableEq, Repr

/-- A ListRequest as used by ListIterator: key-prefix filter, caller resource
version, page limit and the decoded continuation token when one was sent. -/
structure ListReq where
  key : ResourceIdent
  resourceVersion : Int
  limit : Int
  token : Option ContinueToken
  deriving DecidableEq, Repr

/-- Collection loop of ListIterator (storage_backend.go lines 218-228) after
the offset skip: append entries one at a time and stop as soon as the page
holds bound entries (bound is limit + 1), checked after each append. -/
def takeUntilCount (bound : Int) : List MetaDataKey → List MetaDataKey
  | [] => []
  | k :: rest => if bound ≤ 1 then [k] else k :: takeUntilCount (bound - 1) rest

/-- State of kvListIterator: the collected page, the cursor position, the
anchored list revision, the running offset and the per-entry fields. -/
structure KVListIterator where
  keys : List MetaDataKey
  currentIndex : Int
  listRV : Int
  offset : Int
  rv : Int
  err : Option StoreError
  value : String
  deriving DecidableEq, Repr

/-- ListIterator (storage_backend.go lines 184-243): decode the continuation
token when present (recovering offset and anchored revision), mint listRV as
the fresh snowflake unless a positive revision was recovered or supplied,
scan the metadata at the request revision, skip offset entries, collect up to
limit + 1, and hand the page to the iterator.  Returns the listRV reported to
the caller together with the iterator initial state. -/
def listIteratorRun (freshRV : Int) (metaKeys : List MetaDataKey) (req : ListReq) :
    Int × KVListIterator :=
  let offset : Int := match req.token with | some t => t.startOffset | none => 0
  let rv : Int := match req.token with | some t => t.resourceVersion | none => req.resourceVersion
  let listRV := if 0 < rv then rv else freshRV
  let scanned := listResourceKeysAtRevision metaKeys req.key rv
  let keys := takeUntilCount (req.limit + 1) (scanned.drop offset.toNat)
  (listRV, ⟨keys, -1, listRV, offset, 0, none, ""⟩)

/-- kvListIterator.Next (storage_backend.go lines 260-291): advance the
cursor; past the page end report false; otherwise record the entry revision,
fetch and read the payload through the data store (get merges the fetch and
the read, either of which can fail leaving err set and reporting false), and
on success store the value and advance the running offset. -/
def kvListIteratorNext (get : MetaDataKey → Except StoreError String)
    (i : KVListIterator) : Bool × KVListIterator :=
  let idx := i.currentIndex + 1
  if (i.keys.length : Int) ≤ idx then (false, { i with currentIndex := idx })
  else
    match i.keys.get? idx.toNat with
    | none => (false, { i with currentIndex := idx })
    | some k =>
      match get k with
      | .error e => (false, { i with currentIndex := idx, rv := k.resourceVersion, err := some e })
      | .ok v =>
        (true, { i with currentIndex := idx, rv := k.resourceVersion, err := none,
                        value := v, offset := i.offset + 1 })

/-- kvListIterator.Error (storage_backend.go lines 293-295): literally
returns nil, whatever the iterator state holds in its err field. -/
def kvListIteratorError (_ : KVListIterator) : Option StoreError :=
  none

/-- kvListIterator.ContinueToken (storage_backend.go lines 297-302): a fresh
token carrying the running offset anchored to the iterator listRV. -/
def kvListIteratorContinueToken (i : KVListIterator) : ContinueToken :=
  ⟨i.offset, i.listRV, false⟩

/-- Iterator state after n calls to Next. -/
def iterSteps (get : MetaDataKey → Except StoreError String) (i : KVListIterator) :
    Nat → KVListIterator
  | 0 => i
  | n + 1 => iterSteps get (kvListIteratorNext get i).2 n

/-- Names already seen after one dedup pass over a list, mirroring the
accumulator of dedupAux. -/
def seenPlus (seen : List String) : List String → List String
  | [] => seen
  | x :: rest => seenPlus (if x ∈ seen then seen else x :: seen) rest

theorem kvListIteratorNext_listRV (get : MetaDataKey → Except StoreError String)
    (i : KVListIterator) : ((kvListIteratorNext get i).2).listRV = i.listRV := by
  unfold kvListIteratorNext
  dsimp only
  split
  · rfl
  · split
    · rfl
    · split <;> rfl

theorem iterSteps_listRV (get : MetaDataKey → Except StoreError String)
    (i : KVListIterator) (n : Nat) : (iterSteps get i n).listRV = i.listRV := by
  induction n generalizing i with
  | zero => rfl
  | succ n ih => rw [iterSteps, ih, kvListIteratorNext_listRV]

theorem candidatesAt_fresh (metaKeys : List MetaDataKey) (ns g r n : String)
    (freshRV : Int) (hfresh : 0 < freshRV)
    (hlt : ∀ k ∈ metaKeys, k.resourceVersion < freshRV) :
    candidatesAt metaKeys ns g r n 0 = candidatesAt metaKeys ns g r n freshRV := by
  unfold candidatesAt
  refine List.filter_congr ?_
  intro k hk
  simp [le_of_lt (hlt k hk), not_le.mpr hfresh]

theorem listScan_zero_eq_fresh (metaKeys : List MetaDataKey) (pref : ResourceIdent)
    (freshRV : Int) (hfresh : 0 < freshRV)
    (hlt : ∀ k ∈ metaKeys, k.resourceVersion < freshRV) :
    listResourceKeysAtRevision metaKeys pref 0 =
      listResourceKeysAtRevision metaKeys pref freshRV := by
  unfold listResourceKeysAtRevision resolveAtRevision
  congr 1
  funext n
  rw [candidatesAt_fresh _ _ _ _ _ _ hfresh hlt]

theorem dedupAux_append (seen l1 l2 : List String) :
    dedupAux seen (l1 ++ l2) = dedupAux seen l1 ++ dedupAux (seenPlus seen l1) l2 := by
  induction l1 generalizing seen with
  | nil => simp [dedupAux, seenPlus]
  | cons x rest ih =>
    by_cases hx : x ∈ seen
    · simp [dedupAux, seenPlus, hx, ih]
    · simp [dedupAux, seenPlus, hx, ih]

theorem mem_seenPlus (x : String) (seen l : List String) :
    x ∈ seenPlus seen l ↔ x ∈ seen ∨ x ∈ l := by
  induction l generalizing seen with
  | nil => simp [seenPlus]
  | cons y rest ih =>
    by_cases hy : y ∈ seen
    · rw [seenPlus, if_pos hy, ih]
      constructor
      · rintro (h | h)
        · exact Or.inl h
        · exact Or.inr (List.mem_cons_of_mem _ h)
      · rintro (h | h)
        · exact Or.inl h
        · rcases List.mem_cons.mp h with h | h
          · exact Or.inl (h ▸ hy)
          · exact Or.inr h
    · rw [seenPlus, if_neg hy, ih]
      simp [List.mem_cons]
      tauto

theorem mem_dedupAux (x : String) (seen l : List String) (h : x ∈ dedupAux seen l) :
    x ∈ l ∧ x ∉ seen := by
  induction l generalizing seen with
  | nil => simp [dedupAux] at h
  | cons y rest ih =>
    by_cases hy : y ∈ seen
    · rw [dedupAux, if_pos hy] at h
      rcases ih seen h with ⟨h1, h2⟩
      exact ⟨List.mem_cons_of_mem _ h1, h2⟩
    · rw [dedupAux, if_neg hy] at h
      rcases List.mem_cons.mp h with h | h
      · exact ⟨h ▸ List.mem_cons_self _ _, h ▸ hy⟩
      · rcases ih (y :: seen) h with ⟨h1, h2⟩
        refine ⟨List.mem_cons_of_mem _ h1, fun hc => h2 (List.mem_cons_of_mem _ hc)⟩

theorem candidatesAt_append_fresh (metaKeys later : List MetaDataKey) (ns g r n : String)
    (freshRV : Int) (hfresh : 0 < freshRV)
    (hgt : ∀ k ∈ later, freshRV < k.resourceVersion) :
    candidatesAt (metaKeys ++ later) ns g r n freshRV =
      candidatesAt metaKeys ns g r n freshRV := by
  unfold candidatesAt
  rw [List.filter_append]
  have hnil : later.filter
      (fun k => identMatch ns g r n k && decide (freshRV ≤ 0 ∨ k.resourceVersion ≤ freshRV)) = [] := by
    rw [List.filter_eq_nil_iff]
    intro k hk
    simp [not_le.mpr hfresh, not_le.mpr (hgt k hk)]
  rw [hnil, List.append_nil]

theorem listScan_append_fresh (metaKeys later : List MetaDataKey) (pref : ResourceIdent)
    (freshRV : Int) (hfresh : 0 < freshRV)
    (hgt : ∀ k ∈ later, freshRV < k.resourceVersion) :
    listResourceKeysAtRevision (metaKeys ++ later) pref freshRV =
      listResourceKeysAtRevision metaKeys pref freshRV := by
  have hres : ∀ n, resolveAtRevision (metaKeys ++ later) pref.ns pref.group pref.resource n freshRV =
      resolveAtRevision metaKeys pref.ns pref.group pref.resource n freshRV := by
    intro n
    unfold resolveAtRevision
    rw [candidatesAt_append_fresh _ _ _ _ _ _ _ hfresh hgt]
  unfold listResourceKeysAtRevision namesOf
  rw [List.filter_append, List.map_append, dedupAux_append, List.filterMap_append]
  have h2 : (dedupAux (seenPlus [] ((metaKeys.filter (prefMatch pref)).map (fun k => k.name)))
        ((later.filter (prefMatch pref)).map (fun k => k.name))).filterMap
      (fun n => resolveAtRevision (metaKeys ++ later) pref.ns pref.group pref.resource n freshRV) = [] := by
    rw [List.filterMap_eq_nil_iff]
    intro n hn
    rcases mem_dedupAux n _ _ hn with ⟨hn2, hnotseen⟩
    have hnot1 : n ∉ (metaKeys.filter (prefMatch pref)).map (fun k => k.name) := by
      intro hc
      exact hnotseen ((mem_seenPlus n [] _).mpr (Or.inr hc))
    rcases List.mem_map.mp hn2 with ⟨j, hj, hjn⟩
    have hjpref := (List.mem_filter.mp hj).2
    rw [hres]
    unfold resolveAtRevision
    have hcands : candidatesAt metaKeys pref.ns pref.group pref.resource n freshRV = [] := by
      unfold candidatesAt
      rw [List.filter_eq_nil_iff]
      intro k hk hc
      rcases Bool.and_eq_true_iff.mp hc with ⟨hid, _⟩
      rcases of_decide_eq_true hid with ⟨hns, hg, hr, hname⟩
      have hkpref : prefMatch pref k = true := by
        unfold prefMatch
        apply decide_eq_true
        refine ⟨hns, hg, hr, ?_⟩
        unfold prefMatch at hjpref
        rcases of_decide_eq_true hjpref with ⟨_, _, _, hjr⟩
        rcases hjr with hjr | hjr
        · exact Or.inl hjr
        · exact Or.inr (by rw [hname, ← hjn, hjr])
      exact hnot1 (List.mem_map.mpr ⟨k, List.mem_filter.mpr ⟨hk, hkpref⟩, hname⟩)
    rw [hcands]
    rfl
  rw [h2, List.append_nil]
  congr 1
  funext n
  rw [hres]

/-- C1: a ListIterator call with no continuation token and no caller resource
version returns the freshly minted listRV, serves a page drawn from the
metadata scan at exactly that listRV (the scan is invoked with revision 0,
meaning latest, which under the version-generator invariant that every stored
revision is below the fresh listRV observes the very same snapshot), anchors
every continuation token the iterator can ever issue to that same listRV, and
the at-listRV scan is unperturbed by any records written later (all carrying
revisions above listRV), so a page fetched with an issued token observes the
snapshot of the page that issued it. -/
theorem c1_list_fresh_snapshot (freshRV : Int) (metaKeys : List MetaDataKey) (req : ListReq)
    (htok : req.token = none) (hrv : req.resourceVersion = 0)
    (hfresh : 0 < freshRV) (hlt : ∀ k ∈ metaKeys, k.resourceVersion < freshRV) :
    (listIteratorRun freshRV metaKeys req).1 = freshRV ∧
    listResourceKeysAtRevision metaKeys req.key 0 =
      listResourceKeysAtRevision metaKeys req.key freshRV ∧
    (listIteratorRun freshRV metaKeys req).2.keys =
      takeUntilCount (req.limit + 1) (listResourceKeysAtRevision metaKeys req.key freshRV) ∧
    (∀ (get : MetaDataKey → Except StoreError String) (n : Nat),
      (kvListIteratorContinueToken
        (iterSteps get (listIteratorRun freshRV metaKeys req).2 n)).resourceVersion = freshRV) ∧
    (∀ later, (∀ k ∈ later, freshRV < k.resourceVersion) →
      listResourceKeysAtRevision (metaKeys ++ later) req.key freshRV =
        listResourceKeysAtRevision metaKeys req.key freshRV) := by
  have hscan := listScan_zero_eq_fresh metaKeys req.key freshRV hfresh hlt
  have hrun : listIteratorRun freshRV metaKeys req =
      (freshRV, ⟨takeUntilCount (req.limit + 1) (listResourceKeysAtRevision metaKeys req.key 0),
        -1, freshRV, 0, 0, none, ""⟩) := by
    simp [listIteratorRun, htok, hrv]
  refine ⟨by rw [hrun], hscan, ?_, ?_, ?_⟩
  · rw [hrun, ← hscan]
  · intro get n
    unfold kvListIteratorContinueToken
    rw [iterSteps_listRV, hrun]
  · intro later hgt
    exact listScan_append_fresh metaKeys later req.key freshRV hfresh hgt

/-- Witness for C1 at a concrete input: one stored record below the fresh
listRV 100; the call returns 100 and the page was scanned at 100. -/
theorem c1_list_fresh_snapshot_witness :
    (listIteratorRun 100 [⟨"n", "g", "r", "a", 1, .created, "f"⟩]
        ⟨⟨"n", "g", "r", ""⟩, 0, 1, none⟩).1 = 100 ∧
    (listIteratorRun 100 [⟨"n", "g", "r", "a", 1, .created, "f"⟩]
        ⟨⟨"n", "g", "r", ""⟩, 0, 1, none⟩).2.keys =
      takeUntilCount 2 (listResourceKeysAtRevision [⟨"n", "g", "r", "a", 1, .created, "f"⟩]
        ⟨"n", "g", "r", ""⟩ 100) := by
  have h := c1_list_fresh_snapshot 100 [⟨"n", "g", "r", "a", 1, .created, "f"⟩]
    ⟨⟨"n", "g", "r", ""⟩, 0, 1, none⟩ rfl rfl (by decide) (by decide)
  exact ⟨h.1, h.2.2.1⟩

/-- C10: kvListIterator.Error returns nil unconditionally, in particular also
right after a Next call that reported false because fetching or reading the
payload of an entry failed (the err field is set but never surfaced), so a
mid-page read failure looks exactly like a normal end of page. -/
theorem c10_iterator_error_always_nil :
    (∀ i : KVListIterator, kvListIteratorError i = none) ∧
    (∀ (get : MetaDataKey → Except StoreError String) (i : KVListIterator),
      (kvListIteratorNext get i).1 = false →
        kvListIteratorError (kvListIteratorNext get i).2 = none) :=
  ⟨fun _ => rfl, fun _ _ _ => rfl⟩

/-- Witness for C10 at a concrete input: a Next call whose data fetch fails
reports false and records the failure, yet Error still reports none. -/
theorem c10_iterator_error_always_nil_witness :
    kvListIteratorError (kvListIteratorNext (fun _ => .error (.internalErr "x"))
      ⟨[⟨"n", "g", "r", "a", 1, .created, "f"⟩], -1, 5, 0, 0, none, ""⟩).2 = none :=
  c10_iterator_error_always_nil.2 (fun _ => .error (.internalErr "x"))
    ⟨[⟨"n", "g", "r", "a", 1, .created, "f"⟩], -1, 5, 0, 0, none, ""⟩ (by decide)

/-- Version match modes of a list request (ResourceVersionMatchV2):
unset/NotNewerThan default, Exact, NotOlderThan. -/
inductive VersionMatch where
  | unset
  | exact
  | notOlderThan
  deriving DecidableEq, Repr

/-- The parts of a ListRequest that drive ListHistory once the object key has
been validated: match mode, requested resource version, whether the source is
TRASH, and the decoded continuation token when one was sent. -/
structure HistoryRequest where
  versionMatch : VersionMatch
  resourceVersion : Int
  trashSource : Bool
  token : Option ContinueToken
  deriving DecidableEq, Repr

/-- Token decoding of ListHistory (storage_backend.go lines 343-353): the
last seen revision (0 when no token) and the sort direction, ascending for
NotOlderThan unless the token pins a direction. -/
def historyCursor (req : HistoryRequest) : Int × Bool :=
  match req.token with
  | some t => (t.resourceVersion, t.sortAscending)
  | none => (0, req.versionMatch == .notOlderThan)

/-- Version-match filtering of ListHistory (storage_backend.go lines
381-413): Exact demands a positive requested revision and keeps only exact
matches; NotOlderThan keeps revisions at or above a positive requested
revision; the default keeps revisions at or below a positive requested
revision; a requested revision of 0 keeps everything in the last two modes. -/
def versionFilterKeys (vm : VersionMatch) (rv : Int) (keys : List DataKey) :
    Except String (List DataKey) :=
  match vm with
  | .exact =>
    if rv ≤ 0 then .error "expecting an explicit resource version query when using Exact matching"
    else .ok (keys.filter (fun k => decide (k.resourceVersion = rv)))
  | .notOlderThan =>
    if 0 < rv then .ok (keys.filter (fun k => decide (rv ≤ k.resourceVersion))) else .ok keys
  | .unset =>
    if 0 < rv then .ok (keys.filter (fun k => decide (k.resourceVersion ≤ rv))) else .ok keys

/-- One step of the highest-deleted-revision fold. -/
def bumpDeleteRV (acc : Int) (k : DataKey) : Int :=
  if k.action = .deleted ∧ acc < k.resourceVersion then k.resourceVersion else acc

/-- Highest revision among Deleted entries, 0 when there is none
(storage_backend.go lines 418-423). -/
def latestDeleteRV (keys : List DataKey) : Int :=
  keys.foldl bumpDeleteRV 0

/-- The live-window rule (storage_backend.go lines 424-432): when some
Deleted entry exists, keep only entries strictly above the highest Deleted
revision. -/
def liveWindowKeys (keys : List DataKey) : List DataKey :=
  if 0 < latestDeleteRV keys then
    keys.filter (fun k => decide (latestDeleteRV keys < k.resourceVersion))
  else keys

/-- Comparison used for sorting history entries: ascending or descending by
resource version. -/
def rvLE (asc : Bool) (a b : DataKey) : Bool :=
  if asc then decide (a.resourceVersion ≤ b.resourceVersion)
  else decide (b.resourceVersion ≤ a.resourceVersion)

/-- Ordered insertion for the history sort. -/
def insertByRV (asc : Bool) (k : DataKey) : List DataKey → List DataKey
  | [] => [k]
  | j :: rest => if rvLE asc k j then k :: j :: rest else j :: insertByRV asc k rest

/-- Sorting of history entries by resource version in the requested direction
(storage_backend.go lines 436-444). -/
def sortByRV (asc : Bool) : List DataKey → List DataKey
  | [] => []
  | k :: rest => insertByRV asc k (sortByRV asc rest)

/-- Pagination of history entries (storage_backend.go lines 446-456): with no
cursor everything is kept; otherwise exactly the entries strictly beyond the
last seen revision in the pinned direction. -/
def pageFilterKeys (lastSeenRV : Int) (asc : Bool) (keys : List DataKey) : List DataKey :=
  keys.filter (fun k =>
    if lastSeenRV = 0 then true
    else if asc then decide (lastSeenRV < k.resourceVersion)
    else decide (k.resourceVersion < lastSeenRV))

/-- One step of the latest-delete fold: keep the entry with the strictly
higher revision, the earlier one winning ties. -/
def pickLatest (acc : Option DataKey) (k : DataKey) : Option DataKey :=
  match acc with
  | none => some k
  | some j => if j.resourceVersion < k.resourceVersion then some k else some j

/-- The fold of processTrashEntries picking the Deleted entry with the
highest revision (storage_backend.go lines 498-503). -/
def latestDeleted (keys : List DataKey) : Option DataKey :=
  keys.foldl pickLatest none

/-- Candidate selection of processTrashEntries (storage_backend.go lines
477-508): filter the gathered history to Deleted entries; when the
latest-pointer liveness check comes back NotFound keep the single most
recent Deleted entry, otherwise none at all (any other lookup outcome,
success or failure, is treated the same way and never surfaced).  getLatest
is the outcome of metaStore.GetLatestResourceKey for the object. -/
def trashCandidates (getLatest : Except StoreError MetaDataKey)
    (historyKeys : List DataKey) : List DataKey :=
  match getLatest with
  | .error .notFound =>
    match latestDeleted (historyKeys.filter (fun k => decide (k.action = .deleted))) with
    | some k => [k]
    | none => []
  | _ => []

/-- processTrashEntries (storage_backend.go lines 476-583): version-match
filtering, sort and pagination of the trash candidates; the page is what the
iterator serves. -/
def processTrashEntries (req : HistoryRequest) (getLatest : Except StoreError MetaDataKey)
    (historyKeys : List DataKey) : Except String (List DataKey) :=
  let lastSeenRV := (historyCursor req).1
  let asc := (historyCursor req).2
  match versionFilterKeys req.versionMatch req.resourceVersion
      (trashCandidates getLatest historyKeys) with
  | .error e => .error e
  | .ok fkeys => .ok (pageFilterKeys lastSeenRV asc (sortByRV asc fkeys))

/-- The live-mode pipeline of ListHistory (storage_backend.go lines 343-472)
on the gathered history keys of the object: decode the cursor, apply the
version-match filter, apply the live-window rule only when the caller
supplied no resource version (and the source is not TRASH and the match is
not Exact), sort in the pinned direction and paginate. -/
def listHistoryLive (req : HistoryRequest) (historyKeys : List DataKey) :
    Except String (List DataKey) :=
  let lastSeenRV := (historyCursor req).1
  let asc := (historyCursor req).2
  match versionFilterKeys req.versionMatch req.resourceVersion historyKeys with
  | .error e => .error e
  | .ok vkeys =>
    let useLive := req.resourceVersion = 0 ∧ req.trashSource = false ∧ req.versionMatch ≠ .exact
    let wkeys := if useLive then liveWindowKeys vkeys else vkeys
    .ok (pageFilterKeys lastSeenRV asc (sortByRV asc wkeys))

/-- ListHistory (storage_backend.go lines 325-473) after gathering the data
keys of the object: dispatch to the trash pipeline when the source is TRASH,
else run the live pipeline.  The returned page is what the iterator serves. -/
def listHistoryModel (req : HistoryRequest) (getLatest : Except StoreError MetaDataKey)
    (historyKeys : List DataKey) : Except String (List DataKey) :=
  if req.trashSource then processTrashEntries req getLatest historyKeys
  else listHistoryLive req historyKeys

theorem rvLE_total (asc : Bool) (a b : DataKey) : rvLE asc a b = true ∨ rvLE asc b a = true := by
  unfold rvLE
  cases asc <;> simp <;> omega

theorem rvLE_trans (asc : Bool) (a b c : DataKey) (h1 : rvLE asc a b = true)
    (h2 : rvLE asc b c = true) : rvLE asc a c = true := by
  unfold rvLE at h1 h2 ⊢
  cases asc <;> simp at h1 h2 ⊢ <;> omega

theorem mem_insertByRV (asc : Bool) (k x : DataKey) (l : List DataKey) :
    x ∈ insertByRV asc k l ↔ x = k ∨ x ∈ l := by
  induction l with
  | nil => simp [insertByRV]
  | cons j rest ih =>
    rw [insertByRV]
    split
    · simp [List.mem_cons]
    · simp [List.mem_cons, ih]
      tauto

theorem length_insertByRV (asc : Bool) (k : DataKey) (l : List DataKey) :
    (insertByRV asc k l).length = l.length + 1 := by
  induction l with
  | nil => rfl
  | cons j rest ih =>
    rw [insertByRV]
    split
    · rfl
    · simp [ih]

theorem mem_sortByRV (asc : Bool) (x : DataKey) (l : List DataKey) :
    x ∈ sortByRV asc l ↔ x ∈ l := by
  induction l with
  | nil => simp [sortByRV]
  | cons j rest ih => simp [sortByRV, mem_insertByRV, ih, List.mem_cons]

theorem length_sortByRV (asc : Bool) (l : List DataKey) :
    (sortByRV asc l).length = l.length := by
  induction l with
  | nil => rfl
  | cons j rest ih => simp [sortByRV, length_insertByRV, ih]

theorem pairwise_insertByRV (asc : Bool) (k : DataKey) (l : List DataKey)
    (h : l.Pairwise (fun a b => rvLE asc a b = true)) :
    (insertByRV asc k l).Pairwise (fun a b => rvLE asc a b = true) := by
  induction l with
  | nil => simp [insertByRV]
  | cons j rest ih =>
    rw [insertByRV]
    rcases List.pairwise_cons.mp h with ⟨hj, hrest⟩
    by_cases hk : rvLE asc k j = true
    · rw [if_pos hk]
      refine List.pairwise_cons.mpr ⟨?_, h⟩
      intro x hx
      rcases List.mem_cons.mp hx with rfl | hx
      · exact hk
      · exact rvLE_trans asc k j x hk (hj x hx)
    · rw [if_neg hk]
      have hjk : rvLE asc j k = true := (rvLE_total asc k j).resolve_left hk
      refine List.pairwise_cons.mpr ⟨?_, ih hrest⟩
      intro x hx
      rcases (mem_insertByRV asc k x rest).mp hx with rfl | hx
      · exact hjk
      · exact hj x hx

theorem pairwise_sortByRV (asc : Bool) (l : List DataKey) :
    (sortByRV asc l).Pairwise (fun a b => rvLE asc a b = true) := by
  induction l with
  | nil => simp [sortByRV]
  | cons j rest ih => exact pairwise_insertByRV asc j _ ih

theorem versionFilterKeys_ok_sub (vm : VersionMatch) (rv : Int) (keys out : List DataKey)
    (h : versionFilterKeys vm rv keys = .ok out) :
    (∀ k ∈ out, k ∈ keys) ∧ out.length ≤ keys.length := by
  cases vm <;> simp only [versionFilterKeys] at h
  · split at h
    · injection h with h
      subst h
      exact ⟨fun k hk => (List.mem_filter.mp hk).1, List.length_filter_le _ _⟩
    · injection h with h
      subst h
      exact ⟨fun k hk => hk, le_refl _⟩
  · split at h
    · exact Except.noConfusion h
    · injection h with h
      subst h
      exact ⟨fun k hk => (List.mem_filter.mp hk).1, List.length_filter_le _ _⟩
  · split at h
    · injection h with h
      subst h
      exact ⟨fun k hk => (List.mem_filter.mp hk).1, List.length_filter_le _ _⟩
    · injection h with h
      subst h
      exact ⟨fun k hk => hk, le_refl _⟩

theorem foldl_pickLatest_some (keys : List DataKey) (acc : Option DataKey) (k : DataKey)
    (h : keys.foldl pickLatest acc = some k) :
    (k ∈ keys ∨ acc = some k) ∧
    (∀ j ∈ keys, j.resourceVersion ≤ k.resourceVersion) ∧
    (∀ j, acc = some j → j.resourceVersion ≤ k.resourceVersion) := by
  induction keys generalizing acc with
  | nil =>
    refine ⟨Or.inr h, by simp, ?_⟩
    intro j hj
    rw [hj] at h
    injection h with h
    rw [h]
  | cons x rest ih =>
    rw [List.foldl_cons] at h
    obtain ⟨ha, hb, hc⟩ := ih (pickLatest acc x) h
    have hstep : ∀ m, pickLatest acc x = some m →
        x.resourceVersion ≤ m.resourceVersion ∧ (m = x ∨ acc = some m) ∧
        (∀ j, acc = some j → j.resourceVersion ≤ m.resourceVersion) := by
      intro m hm
      cases acc with
      | none =>
        simp only [pickLatest] at hm
        injection hm with hm
        subst hm
        exact ⟨le_refl _, Or.inl rfl, by simp⟩
      | some j =>
        simp only [pickLatest] at hm
        by_cases hcond : j.resourceVersion < x.resourceVersion
        · rw [if_pos hcond] at hm
          injection hm with hm
          subst hm
          refine ⟨le_refl _, Or.inl rfl, ?_⟩
          intro j2 hj2
          injection hj2 with hj2
          subst hj2
          omega
        · rw [if_neg hcond] at hm
          injection hm with hm
          subst hm
          refine ⟨by omega, Or.inr rfl, ?_⟩
          intro j2 hj2
          injection hj2 with hj2
          subst hj2
          exact le_refl _
    have hsome : ∃ m, pickLatest acc x = some m := by
      cases acc with
      | none => exact ⟨x, rfl⟩
      | some j =>
        simp only [pickLatest]
        by_cases hlt : j.resourceVersion < x.resourceVersion
        · exact ⟨x, by rw [if_pos hlt]⟩
        · exact ⟨j, by rw [if_neg hlt]⟩
    obtain ⟨m, hm⟩ := hsome
    obtain ⟨hm1, hm2, hm3⟩ := hstep m hm
    refine ⟨?_, ?_, ?_⟩
    · rcases ha with ha | ha
      · exact Or.inl (List.mem_cons_of_mem _ ha)
      · rw [hm] at ha
        injection ha with ha
        subst ha
        rcases hm2 with rfl | hm2
        · exact Or.inl (List.mem_cons_self _ _)
        · exact Or.inr hm2
    · intro j hj
      rcases List.mem_cons.mp hj with rfl | hj
      · exact le_trans hm1 (hc m hm)
      · exact hb j hj
    · intro j hj
      exact le_trans (hm3 j hj) (hc m hm)

theorem latestDeleted_spec (keys : List DataKey) (k : DataKey)
    (h : latestDeleted keys = some k) :
    k ∈ keys ∧ ∀ j ∈ keys, j.resourceVersion ≤ k.resourceVersion := by
  obtain ⟨ha, hb, _⟩ := foldl_pickLatest_some keys none k h
  exact ⟨ha.resolve_right (by simp), hb⟩

theorem foldl_bumpDeleteRV_ge (keys : List DataKey) (acc : Int) :
    acc ≤ keys.foldl bumpDeleteRV acc ∧
    ∀ j ∈ keys, j.action = .deleted → j.resourceVersion ≤ keys.foldl bumpDeleteRV acc := by
  induction keys generalizing acc with
  | nil => exact ⟨le_refl _, by simp⟩
  | cons x rest ih =>
    rw [List.foldl_cons]
    obtain ⟨h1, h2⟩ := ih (bumpDeleteRV acc x)
    have hstep : acc ≤ bumpDeleteRV acc x ∧
        (x.action = .deleted → x.resourceVersion ≤ bumpDeleteRV acc x) := by
      unfold bumpDeleteRV
      split
      · rename_i hcond
        exact ⟨le_of_lt hcond.2, fun _ => le_refl _⟩
      · rename_i hcond
        refine ⟨le_refl _, fun hx => ?_⟩
        by_cases hlt : acc < x.resourceVersion
        · exact absurd ⟨hx, hlt⟩ hcond
        · omega
    refine ⟨le_trans hstep.1 h1, ?_⟩
    intro j hj hdel
    rcases List.mem_cons.mp hj with rfl | hj
    · exact le_trans (hstep.2 hdel) h1
    · exact h2 j hj hdel

theorem latestDeleteRV_ge (keys : List DataKey) (j : DataKey) (hj : j ∈ keys)
    (hdel : j.action = .deleted) : j.resourceVersion ≤ latestDeleteRV keys :=
  (foldl_bumpDeleteRV_ge keys 0).2 j hj hdel

theorem liveWindowKeys_mem (keys : List DataKey) (k : DataKey)
    (hld : 0 < latestDeleteRV keys) (h : k ∈ liveWindowKeys keys) :
    latestDeleteRV keys < k.resourceVersion ∧ k ∈ keys := by
  unfold liveWindowKeys at h
  rw [if_pos hld] at h
  exact ⟨of_decide_eq_true (List.mem_filter.mp h).2, (List.mem_filter.mp h).1⟩

theorem listHistoryLive_ok (req : HistoryRequest) (keys out : List DataKey)
    (h : listHistoryLive req keys = .ok out) :
    ∃ vkeys, versionFilterKeys req.versionMatch req.resourceVersion keys = .ok vkeys ∧
      out = pageFilterKeys (historyCursor req).1 (historyCursor req).2
        (sortByRV (historyCursor req).2
          (if req.resourceVersion = 0 ∧ req.trashSource = false ∧ req.versionMatch ≠ .exact
           then liveWindowKeys vkeys else vkeys)) := by
  unfold listHistoryLive at h
  cases hv : versionFilterKeys req.versionMatch req.resourceVersion keys with
  | error e =>
    rw [hv] at h
    exact Except.noConfusion h
  | ok vkeys =>
    rw [hv] at h
    injection h with h
    exact ⟨vkeys, rfl, h.symm⟩

theorem processTrashEntries_ok (req : HistoryRequest)
    (getLatest : Except StoreError MetaDataKey) (keys out : List DataKey)
    (h : processTrashEntries req getLatest keys = .ok out) :
    ∃ fkeys, versionFilterKeys req.versionMatch req.resourceVersion
        (trashCandidates getLatest keys) = .ok fkeys ∧
      out = pageFilterKeys (historyCursor req).1 (historyCursor req).2
        (sortByRV (historyCursor req).2 fkeys) := by
  unfold processTrashEntries at h
  cases hv : versionFilterKeys req.versionMatch req.resourceVersion
      (trashCandidates getLatest keys) with
  | error e =>
    rw [hv] at h
    exact Except.noConfusion h
  | ok fkeys =>
    rw [hv] at h
    injection h with h
    exact ⟨fkeys, rfl, h.symm⟩

theorem trashCandidates_length (getLatest : Except StoreError MetaDataKey)
    (keys : List DataKey) : (trashCandidates getLatest keys).length ≤ 1 := by
  unfold trashCandidates
  cases getLatest with
  | ok m => simp
  | error e =>
    cases e with
    | notFound =>
      cases latestDeleted (keys.filter (fun k => decide (k.action = .deleted))) <;> simp
    | internalErr msg => simp

theorem trashCandidates_mem (getLatest : Except StoreError MetaDataKey)
    (keys : List DataKey) (k : DataKey) (h : k ∈ trashCandidates getLatest keys) :
    k.action = .deleted ∧ k ∈ keys ∧
    (∀ j ∈ keys, j.action = .deleted → j.resourceVersion ≤ k.resourceVersion) ∧
    getLatest = .error .notFound := by
  unfold trashCandidates at h
  cases getLatest with
  | ok m => simp at h
  | error e =>
    cases e with
    | notFound =>
      cases hld : latestDeleted (keys.filter (fun j => decide (j.action = .deleted))) with
      | none => rw [hld] at h; simp at h
      | some kd =>
        rw [hld] at h
        rcases List.mem_singleton.mp h with rfl
        obtain ⟨hmem, hmax⟩ := latestDeleted_spec _ _ hld
        refine ⟨of_decide_eq_true (List.mem_filter.mp hmem).2, (List.mem_filter.mp hmem).1,
          ?_, rfl⟩
        intro j hj hjd
        exact hmax j (List.mem_filter.mpr ⟨hj, decide_eq_true hjd⟩)
    | internalErr msg => simp at h

/-- C5 counterexample: a live-mode ListHistory call with default (not Exact)
version matching, source not TRASH, and a caller-supplied resource version 3
over a history holding Created at 1, Deleted at 2 and Created at 3 returns
all three revisions, including revision 1 which sits at or below the highest
Deleted revision 2 — so the live-window rule is not applied for every such
call, contradicting the claim. -/
theorem c5_counterexample :
    listHistoryLive ⟨.unset, 3, false, none⟩
        [⟨"n", "g", "r", "x", 1, .created⟩, ⟨"n", "g", "r", "x", 2, .deleted⟩,
         ⟨"n", "g", "r", "x", 3, .created⟩] =
      .ok [⟨"n", "g", "r", "x", 3, .created⟩, ⟨"n", "g", "r", "x", 2, .deleted⟩,
         ⟨"n", "g", "r", "x", 1, .created⟩] ∧
    latestDeleteRV [⟨"n", "g", "r", "x", 1, .created⟩, ⟨"n", "g", "r", "x", 2, .deleted⟩,
         ⟨"n", "g", "r", "x", 3, .created⟩] = 2 :=
  ⟨rfl, rfl⟩

/-- C5 (amended): for a live-mode ListHistory call whose version match is not
Exact, whose source is not TRASH and where the caller supplied no resource
version (ResourceVersion = 0), if the history contains a Deleted revision
then every returned entry lies strictly above the highest Deleted revision
(revisions at or below it are excluded); with a caller-supplied resource
version the live-window rule is skipped. -/
theorem c5_live_window_on_zero_rv (req : HistoryRequest) (keys out : List DataKey)
    (hvm : req.versionMatch ≠ .exact) (hts : req.trashSource = false)
    (hrv : req.resourceVersion = 0)
    (hdel : ∃ k ∈ keys, k.action = .deleted ∧ 0 < k.resourceVersion)
    (h : listHistoryLive req keys = .ok out) :
    ∀ k ∈ out, latestDeleteRV keys < k.resourceVersion := by
  obtain ⟨vkeys, hv, hout⟩ := listHistoryLive_ok req keys out h
  have hvk : vkeys = keys := by
    cases hvm2 : req.versionMatch with
    | exact => exact absurd hvm2 hvm
    | notOlderThan =>
      rw [hvm2, hrv] at hv
      simp [versionFilterKeys] at hv
      exact hv.symm
    | unset =>
      rw [hvm2, hrv] at hv
      simp [versionFilterKeys] at hv
      exact hv.symm
  rw [hvk, if_pos ⟨hrv, hts, hvm⟩] at hout
  obtain ⟨kd, hkd, hkdel, hkpos⟩ := hdel
  have hld : 0 < latestDeleteRV keys :=
    lt_of_lt_of_le hkpos (latestDeleteRV_ge keys kd hkd hkdel)
  intro k hk
  rw [hout] at hk
  have hk2 : k ∈ sortByRV (historyCursor req).2 (liveWindowKeys keys) :=
    (List.mem_filter.mp hk).1
  have hk3 : k ∈ liveWindowKeys keys := (mem_sortByRV _ _ _).mp hk2
  exact (liveWindowKeys_mem keys k hld hk3).1

/-- Witness for the amended C5 at a concrete input: with no caller resource
version, the history Created 1 / Deleted 2 / Created 3 only surfaces
revision 3, which lies strictly above the highest Deleted revision 2. -/
theorem c5_live_window_on_zero_rv_witness :
    latestDeleteRV [⟨"n", "g", "r", "x", 1, .created⟩, ⟨"n", "g", "r", "x", 2, .deleted⟩,
        ⟨"n", "g", "r", "x", 3, .created⟩] <
      (⟨"n", "g", "r", "x", 3, .created⟩ : DataKey).resourceVersion :=
  c5_live_window_on_zero_rv ⟨.unset, 0, false, none⟩
    [⟨"n", "g", "r", "x", 1, .created⟩, ⟨"n", "g", "r", "x", 2, .deleted⟩,
     ⟨"n", "g", "r", "x", 3, .created⟩]
    [⟨"n", "g", "r", "x", 3, .created⟩] (by decide) rfl rfl (by decide) rfl
    ⟨"n", "g", "r", "x", 3, .created⟩ (by decide)

/-- C9 counterexample: a ListHistory call with Source TRASH whose liveness
check against the metadata latest pointer fails with an internal store error
completes successfully with an empty trash result instead of surfacing the
failure, contradicting the claim. -/
theorem c9_counterexample :
    listHistoryModel ⟨.unset, 0, true, none⟩ (.error (.internalErr "boom"))
        [⟨"n", "g", "r", "x", 2, .deleted⟩] = .ok [] :=
  rfl

/-- C9 (amended): when the liveness check of a TRASH ListHistory call fails
with any error other than NotFound, the failure is swallowed: the call treats
the object as currently live and completes successfully with an empty trash
result (the only error still possible is the unrelated Exact-match
validation, excluded here by requiring a positive resource version whenever
the match is Exact). -/
theorem c9_trash_liveness_error_swallowed (req : HistoryRequest) (msg : String)
    (keys : List DataKey) (htrash : req.trashSource = true)
    (hex : req.versionMatch = .exact → 0 < req.resourceVersion) :
    listHistoryModel req (.error (.internalErr msg)) keys = .ok [] := by
  unfold listHistoryModel
  rw [htrash]
  simp only [if_true]
  unfold processTrashEntries trashCandidates
  cases hvm : req.versionMatch with
  | exact =>
    have hpos := hex hvm
    simp [versionFilterKeys, hvm, not_le.mpr hpos, pageFilterKeys, sortByRV]
  | notOlderThan => simp [versionFilterKeys, hvm, pageFilterKeys, sortByRV]
  | unset => simp [versionFilterKeys, hvm, pageFilterKeys, sortByRV]

/-- Witness for the amended C9 at a concrete input: an Exact-match TRASH call
with a positive resource version and a failing liveness check still returns
success with an empty page. -/
theorem c9_trash_liveness_error_swallowed_witness :
    listHistoryModel ⟨.exact, 5, true, none⟩ (.error (.internalErr "x"))
        [⟨"n", "g", "r", "x", 2, .deleted⟩] = .ok [] :=
  c9_trash_liveness_error_swallowed ⟨.exact, 5, true, none⟩ "x"
    [⟨"n", "g", "r", "x", 2, .deleted⟩] rfl (fun _ => by decide)

/-- C6: a ListHistory call with Source TRASH serves at most one entry; any
served entry is a Deleted revision carrying the highest revision among the
Deleted revisions of the gathered history; a successful latest-pointer lookup
(the object is currently live) forces an empty trash result; and a non-empty
trash result can only arise from a NotFound liveness check (the object is not
currently live). -/
theorem c6_trash_single_latest (req : HistoryRequest)
    (getLatest : Except StoreError MetaDataKey) (keys out : List DataKey)
    (htrash : req.trashSource = true)
    (h : listHistoryModel req getLatest keys = .ok out) :
    out.length ≤ 1 ∧
    (∀ k ∈ out, k.action = .deleted ∧
      ∀ j ∈ keys, j.action = .deleted → j.resourceVersion ≤ k.resourceVersion) ∧
    (∀ m, getLatest = .ok m → out = []) ∧
    (out ≠ [] → getLatest = .error .notFound) := by
  unfold listHistoryModel at h
  rw [htrash] at h
  simp only [if_true] at h
  obtain ⟨fkeys, hv, hout⟩ := processTrashEntries_ok req getLatest keys out h
  obtain ⟨hsub, hlen⟩ := versionFilterKeys_ok_sub _ _ _ _ hv
  have hmem : ∀ k ∈ out, k ∈ trashCandidates getLatest keys := by
    intro k hk
    rw [hout] at hk
    exact hsub k ((mem_sortByRV _ _ _).mp (List.mem_filter.mp hk).1)
  refine ⟨?_, ?_, ?_, ?_⟩
  · rw [hout]
    calc (pageFilterKeys (historyCursor req).1 (historyCursor req).2
          (sortByRV (historyCursor req).2 fkeys)).length
        ≤ (sortByRV (historyCursor req).2 fkeys).length := List.length_filter_le _ _
      _ = fkeys.length := length_sortByRV _ _
      _ ≤ (trashCandidates getLatest keys).length := hlen
      _ ≤ 1 := trashCandidates_length _ _
  · intro k hk
    obtain ⟨h1, _, h3, _⟩ := trashCandidates_mem _ _ _ (hmem k hk)
    exact ⟨h1, h3⟩
  · intro m hm
    rcases hout2 : out with _ | ⟨k, rest⟩
    · rfl
    · exfalso
      have hk : k ∈ out := by rw [hout2]; exact List.mem_cons_self _ _
      obtain ⟨_, _, _, h4⟩ := trashCandidates_mem _ _ _ (hmem k hk)
      rw [hm] at h4
      exact Except.noConfusion h4
  · intro hne
    rcases hout2 : out with _ | ⟨k, rest⟩
    · exact absurd hout2 hne
    · have hk : k ∈ out := by rw [hout2]; exact List.mem_cons_self _ _
      exact (trashCandidates_mem _ _ _ (hmem k hk)).2.2.2

/-- Witness for C6 at a concrete input: a non-live object with history
Created 1 / Deleted 2 serves exactly the single Deleted entry, a page of
length at most one. -/
theorem c6_trash_single_latest_witness :
    ([⟨"n", "g", "r", "x", 2, .deleted⟩] : List DataKey).length ≤ 1 :=
  (c6_trash_single_latest ⟨.unset, 0, true, none⟩ (.error .notFound)
    [⟨"n", "g", "r", "x", 1, .created⟩, ⟨"n", "g", "r", "x", 2, .deleted⟩]
    [⟨"n", "g", "r", "x", 2, .deleted⟩] rfl rfl).1

/-- C7: the page served by a live-mode ListHistory call is ordered by
resource version in the pinned direction (the cursor direction is the token
one when a token was sent, else ascending exactly for NotOlderThan); a token
also pins the last seen revision; and with a token carrying a nonzero
lastSeenRV the page holds exactly the entries of the sorted, filtered history
strictly beyond lastSeenRV in the pinned direction — an exclusive cursor that
neither repeats the boundary entry nor drops one. -/
theorem c7_history_sort_and_cursor (req : HistoryRequest) (keys out : List DataKey)
    (h : listHistoryLive req keys = .ok out) :
    out.Pairwise (fun a b => rvLE (historyCursor req).2 a b = true) ∧
    (req.token = none → ((historyCursor req).2 = true ↔ req.versionMatch = .notOlderThan)) ∧
    (∀ t, req.token = some t →
      (historyCursor req).2 = t.sortAscending ∧ (historyCursor req).1 = t.resourceVersion) ∧
    (∀ t, req.token = some t → t.resourceVersion ≠ 0 →
      ∀ vkeys, versionFilterKeys req.versionMatch req.resourceVersion keys = .ok vkeys →
        ∀ k, k ∈ out ↔
          (k ∈ sortByRV t.sortAscending
              (if req.resourceVersion = 0 ∧ req.trashSource = false ∧ req.versionMatch ≠ .exact
               then liveWindowKeys vkeys else vkeys) ∧
            ((t.sortAscending = true ∧ t.resourceVersion < k.resourceVersion) ∨
             (t.sortAscending = false ∧ k.resourceVersion < t.resourceVersion)))) := by
  obtain ⟨vkeys, hv, hout⟩ := listHistoryLive_ok req keys out h
  refine ⟨?_, ?_, ?_, ?_⟩
  · rw [hout]
    unfold pageFilterKeys
    exact (pairwise_sortByRV _ _).sublist (List.filter_sublist _)
  · intro htok
    unfold historyCursor
    rw [htok]
    simp
  · intro t htok
    unfold historyCursor
    rw [htok]
    exact ⟨rfl, rfl⟩
  · intro t htok htrv vkeys0 hv0
    rw [hv] at hv0
    injection hv0 with hv0
    subst hv0
    have hcur : historyCursor req = (t.resourceVersion, t.sortAscending) := by
      unfold historyCursor
      rw [htok]
    rw [hcur] at hout
    intro k
    rw [hout]
    unfold pageFilterKeys
    rw [List.mem_filter]
    constructor
    · rintro ⟨h1, h2⟩
      rw [if_neg htrv] at h2
      refine ⟨h1, ?_⟩
      cases hasc : t.sortAscending
      · rw [hasc] at h2
        simp at h2
        exact Or.inr ⟨rfl, h2⟩
      · rw [hasc] at h2
        simp at h2
        exact Or.inl ⟨rfl, h2⟩
    · rintro ⟨h1, h2⟩
      refine ⟨h1, ?_⟩
      rw [if_neg htrv]
      rcases h2 with ⟨hasc, hlt⟩ | ⟨hasc, hlt⟩
      · rw [hasc]
        simp [hlt]
      · rw [hasc]
        simp [hlt]

/-- Witness for C7 at a concrete input: a descending token with lastSeenRV 2
over revisions 1 and 3 serves exactly revision 1, ordered in the pinned
(descending) direction. -/
theorem c7_history_sort_and_cursor_witness :
    ([⟨"n", "g", "r", "x", 1, .created⟩] : List DataKey).Pairwise
      (fun a b => rvLE (historyCursor ⟨.unset, 0, false, some ⟨0, 2, false⟩⟩).2 a b = true) :=
  (c7_history_sort_and_cursor ⟨.unset, 0, false, some ⟨0, 2, false⟩⟩
    [⟨"n", "g", "r", "x", 1, .created⟩, ⟨"n", "g", "r", "x", 3, .created⟩]
    [⟨"n", "g", "r", "x", 1, .created⟩] rfl).1

theorem foldl_pickMaxBy_some {α : Type} (f : α → Int) (keys : List α) (acc : Option α)
    (k : α) (h : keys.foldl (pickMaxBy f) acc = some k) :
    (k ∈ keys ∨ acc = some k) ∧ (∀ j ∈ keys, f j ≤ f k) ∧
    (∀ j, acc = some j → f j ≤ f k) := by
  induction keys generalizing acc with
  | nil =>
    refine ⟨Or.inr h, by simp, ?_⟩
    intro j hj
    rw [hj] at h
    injection h with h
    rw [h]
  | cons x rest ih =>
    rw [List.foldl_cons] at h
    obtain ⟨ha, hb, hc⟩ := ih (pickMaxBy f acc x) h
    have hstep : ∀ m, pickMaxBy f acc x = some m →
        f x ≤ f m ∧ (m = x ∨ acc = some m) ∧ (∀ j, acc = some j → f j ≤ f m) := by
      intro m hm
      cases acc with
      | none =>
        simp only [pickMaxBy] at hm
        injection hm with hm
        subst hm
        exact ⟨le_refl _, Or.inl rfl, by simp⟩
      | some j =>
        simp only [pickMaxBy] at hm
        by_cases hcond : f j < f x
        · rw [if_pos hcond] at hm
          injection hm with hm
          subst hm
          refine ⟨le_refl _, Or.inl rfl, ?_⟩
          intro j2 hj2
          injection hj2 with hj2
          subst hj2
          omega
        · rw [if_neg hcond] at hm
          injection hm with hm
          subst hm
          refine ⟨by omega, Or.inr rfl, ?_⟩
          intro j2 hj2
          injection hj2 with hj2
          subst hj2
          exact le_refl _
    have hsome : ∃ m, pickMaxBy f acc x = some m := by
      cases acc with
      | none => exact ⟨x, rfl⟩
      | some j =>
        simp only [pickMaxBy]
        by_cases hlt : f j < f x
        · exact ⟨x, by rw [if_pos hlt]⟩
        · exact ⟨j, by rw [if_neg hlt]⟩
    obtain ⟨m, hm⟩ := hsome
    obtain ⟨hm1, hm2, hm3⟩ := hstep m hm
    refine ⟨?_, ?_, ?_⟩
    · rcases ha with ha | ha
      · exact Or.inl (List.mem_cons_of_mem _ ha)
      · rw [hm] at ha
        injection ha with ha
        subst ha
        rcases hm2 with rfl | hm2
        · exact Or.inl (List.mem_cons_self _ _)
        · exact Or.inr hm2
    · intro j hj
      rcases List.mem_cons.mp hj with rfl | hj
      · exact le_trans hm1 (hc m hm)
      · exact hb j hj
    · intro j hj
      exact le_trans (hm3 j hj) (hc m hm)

theorem maxByRV_spec (l : List MetaDataKey) (k : MetaDataKey) (h : maxByRV l = some k) :
    k ∈ l ∧ ∀ j ∈ l, j.resourceVersion ≤ k.resourceVersion := by
  obtain ⟨ha, hb, _⟩ := foldl_pickMaxBy_some (fun k => k.resourceVersion) l none k
    (by rw [← maxByRV]; exact h)
  exact ⟨ha.resolve_right (by simp), hb⟩

/-- Modelled from the spec: metadataStore.GetResourceKeyAtRevision (not under
src/) resolves one object at a revision and reports ErrNotFound when no live
record resolves there. -/
def getResourceKeyAtRevision (metaKeys : List MetaDataKey) (k : ResourceIdent)
    (rv : Int) : Except StoreError MetaDataKey :=
  match resolveAtRevision metaKeys k.ns k.group k.resource k.name rv with
  | some m => .ok m
  | none => .error .notFound

/-- Point lookup in the data store: the payload stored under exactly this
DataKey, ErrNotFound when the record is missing. -/
def dataGet (dataRecords : List (DataKey × String)) (k : DataKey) :
    Except StoreError String :=
  match dataRecords.find? (fun p => p.1 == k) with
  | some p => .ok p.2
  | none => .error .notFound

/-- A ReadRequest: the object identity (absent when the caller sent no key)
and the requested resource version (0 for latest). -/
structure ReadRequest where
  key : Option ResourceIdent
  resourceVersion : Int
  deriving DecidableEq, Repr

/-- The BackendReadResponse shapes: an error with an HTTP-style status code
and message, or a successful read carrying the resolved resource version,
the payload and the folder. -/
inductive ReadResponse where
  | failure (code : Nat) (msg : String)
  | success (rv : Int) (value : String) (folder : String)
  deriving DecidableEq, Repr

/-- The response assembly of ReadResource (storage_backend.go lines 149-180)
given the outcome of the metadata resolution: NotFound resolution gives a 404
not-found response, any other resolution failure a 500 backend error; on
success the matching DataRecord is fetched (a fetch or read failure gives a
500) and the payload, folder and resolved revision are returned. -/
def readResourceWith (resolved : Except StoreError MetaDataKey)
    (dataRecords : List (DataKey × String)) (k : ResourceIdent) : ReadResponse :=
  match resolved with
  | .error .notFound => .failure 404 "not found"
  | .error (.internalErr msg) => .failure 500 msg
  | .ok meta =>
    match dataGet dataRecords ⟨k.ns, k.group, k.resource, k.name,
        meta.resourceVersion, meta.action⟩ with
    | .error .notFound => .failure 500 "not found"
    | .error (.internalErr msg) => .failure 500 msg
    | .ok v => .success meta.resourceVersion v meta.folder

/-- ReadResource (storage_backend.go lines 145-181): reject a missing key
with a 400, resolve the MetaRecord at the requested revision and assemble the
response. -/
def readResource (metaKeys : List MetaDataKey) (dataRecords : List (DataKey × String))
    (req : ReadRequest) : ReadResponse :=
  match req.key with
  | none => .failure 400 "missing key"
  | some k =>
    readResourceWith (getResourceKeyAtRevision metaKeys k req.resourceVersion) dataRecords k

/-- C8: ReadResource resolves the MetaRecord of the requested object whose
resource version is the greatest one at or below the requested version (any
version when the requested version is 0, so the latest live record); a
NotFound resolution yields a 404 not-found response distinguishable from the
500 responses carrying backend or transport failures; and a successful
resolution returns the matching DataRecord payload, the folder and the
resolved resource version. -/
theorem c8_read_resolves_at_revision (metaKeys : List MetaDataKey)
    (dataRecords : List (DataKey × String)) (k : ResourceIdent) (rv : Int) :
    (∀ m, getResourceKeyAtRevision metaKeys k rv = .ok m →
      m ∈ metaKeys ∧ m.ns = k.ns ∧ m.group = k.group ∧ m.resource = k.resource ∧
      m.name = k.name ∧ m.action ≠ .deleted ∧ (0 < rv → m.resourceVersion ≤ rv) ∧
      (∀ j ∈ metaKeys, j.ns = k.ns → j.group = k.group → j.resource = k.resource →
        j.name = k.name → (0 < rv → j.resourceVersion ≤ rv) →
        j.resourceVersion ≤ m.resourceVersion)) ∧
    (getResourceKeyAtRevision metaKeys k rv = .error .notFound →
      readResource metaKeys dataRecords ⟨some k, rv⟩ = .failure 404 "not found" ∧
      ∀ msg, ReadResponse.failure 404 "not found" ≠ .failure 500 msg) ∧
    (∀ m v, getResourceKeyAtRevision metaKeys k rv = .ok m →
      dataGet dataRecords ⟨k.ns, k.group, k.resource, k.name,
        m.resourceVersion, m.action⟩ = .ok v →
      readResource metaKeys dataRecords ⟨some k, rv⟩ = .success m.resourceVersion v m.folder) := by
  refine ⟨?_, ?_, ?_⟩
  · intro m hm
    unfold getResourceKeyAtRevision at hm
    cases hres : resolveAtRevision metaKeys k.ns k.group k.resource k.name rv with
    | none => rw [hres] at hm; exact Except.noConfusion hm
    | some m0 =>
      rw [hres] at hm
      injection hm with hm
      subst hm
      unfold resolveAtRevision at hres
      cases hmax : maxByRV (candidatesAt metaKeys k.ns k.group k.resource k.name rv) with
      | none => rw [hmax] at hres; exact Option.noConfusion hres
      | some km =>
        simp only [hmax] at hres
        by_cases hdel : km.action = .deleted
        · rw [if_pos hdel] at hres
          exact Option.noConfusion hres
        · rw [if_neg hdel] at hres
          injection hres with hres
          subst hres
          obtain ⟨hmem, hmax2⟩ := maxByRV_spec _ _ hmax
          have hfil := List.mem_filter.mp hmem
          rcases Bool.and_eq_true_iff.mp hfil.2 with ⟨hid, hrv2⟩
          rcases of_decide_eq_true hid with ⟨h1, h2, h3, h4⟩
          refine ⟨hfil.1, h1, h2, h3, h4, hdel, ?_, ?_⟩
          · intro hpos
            rcases of_decide_eq_true hrv2 with hle | hle
            · omega
            · exact hle
          · intro j hj hj1 hj2 hj3 hj4 hj5
            refine hmax2 j (List.mem_filter.mpr ⟨hj, ?_⟩)
            refine Bool.and_eq_true_iff.mpr ⟨decide_eq_true ⟨hj1, hj2, hj3, hj4⟩, decide_eq_true ?_⟩
            by_cases hpos : 0 < rv
            · exact Or.inr (hj5 hpos)
            · exact Or.inl (by omega)
  · intro hm
    refine ⟨?_, ?_⟩
    · simp only [readResource, readResourceWith, hm]
    · intro msg
      simp
  · intro m v hm hdata
    simp only [readResource, readResourceWith, hm, hdata]

/-- Witness for C8 at a concrete input: with records at revisions 1 and 3, a
read at revision 2 resolves revision 1 and returns its payload and folder. -/
theorem c8_read_resolves_at_revision_witness :
    readResource
        [⟨"n", "g", "r", "x", 1, .created, "f1"⟩, ⟨"n", "g", "r", "x", 3, .updated, "f2"⟩]
        [(⟨"n", "g", "r", "x", 1, .created⟩, "v1"), (⟨"n", "g", "r", "x", 3, .updated⟩, "v3")]
        ⟨some ⟨"n", "g", "r", "x"⟩, 2⟩ = .success 1 "v1" "f1" :=
  (c8_read_resolves_at_revision
      [⟨"n", "g", "r", "x", 1, .created, "f1"⟩, ⟨"n", "g", "r", "x", 3, .updated, "f2"⟩]
      [(⟨"n", "g", "r", "x", 1, .created⟩, "v1"), (⟨"n", "g", "r", "x", 3, .updated⟩, "v3")]
      ⟨"n", "g", "r", "x"⟩ 2).2.2 ⟨"n", "g", "r", "x", 1, .created, "f1"⟩ "v1" rfl rfl

/-- One accumulated stats group of GetResourceStats: the namespace / group /
resource triple, the per-name liveness map (as an association list in
insertion order) and the resource-version slot as the scan maintains it. -/
structure StatGroup where
  ns : String
  group : String
  resource : String
  names : List (String × Bool)
  rv : Int
  deriving DecidableEq, Repr

/-- Assignment into the per-name liveness map (a Go map write). -/
def assocSet (names : List (String × Bool)) (n : String) (b : Bool) :
    List (String × Bool) :=
  match names with
  | [] => [(n, b)]
  | (m, c) :: rest => if m = n then (m, b) :: rest else (m, c) :: assocSet rest n b

/-- One scan step of GetResourceStats (storage_backend.go lines 746-757):
group the data key by namespace/group/resource, record the liveness of its
name as the action being not Deleted, and overwrite the resource-version slot
of the group with the resource version of this key — the slot starts at 1 for
a new group and afterwards always holds the version of the last scanned key
of the group, not the maximum seen. -/
def statStep (acc : List StatGroup) (k : DataKey) : List StatGroup :=
  match acc with
  | [] => [⟨k.ns, k.group, k.resource, [(k.name, decide (k.action ≠ .deleted))],
      k.resourceVersion⟩]
  | g :: rest =>
    if g.ns = k.ns ∧ g.group = k.group ∧ g.resource = k.resource then
      { g with names := assocSet g.names k.name (decide (k.action ≠ .deleted)),
               rv := k.resourceVersion } :: rest
    else g :: statStep rest k

/-- One emitted stats row. -/
structure ResourceStats where
  ns : String
  group : String
  resource : String
  count : Int
  resourceVersion : Int
  deriving DecidableEq, Repr

/-- GetResourceStats (storage_backend.go lines 740-781) on the data keys of a
namespace in store scan order: accumulate the groups, then emit one row per
group whose live-name count strictly exceeds minCount, carrying that count
and the resource-version slot of the group. -/
def getResourceStats (keys : List DataKey) (minCount : Int) : List ResourceStats :=
  (keys.foldl statStep []).filterMap (fun g =>
    let count : Int := ((g.names.filter (fun p => p.2)).length : Int)
    if count ≤ minCount then none
    else some ⟨g.ns, g.group, g.resource, count, g.rv⟩)

/-- C2 evaluated at the failing input: two names of one (group, resource)
pair scanned in store order — name a at revision 10, then name b at revision
5, both live.  The emitted row counts both names but carries ResourceVersion
5, the revision of the last scanned key, not the maximum observed revision
10: the resource-version slot is overwritten on every key instead of being
maxed, contradicting the claim (and the spec, which the initial slot value 1
of the source only makes sense for). -/
theorem c2_stats_rv_not_max :
    getResourceStats [⟨"n", "g", "r", "a", 10, .created⟩, ⟨"n", "g", "r", "b", 5, .created⟩] 0 =
      [⟨"n", "g", "r", 2, 5⟩] ∧
    (10 : Int) ∈ [⟨"n", "g", "r", "a", 10, .created⟩,
        ⟨"n", "g", "r", "b", 5, .created⟩].map (fun k => DataKey.resourceVersion k) ∧
    (getResourceStats [⟨"n", "g", "r", "a", 10, .created⟩,
        ⟨"n", "g", "r", "b", 5, .created⟩] 0).map (fun s => s.resourceVersion) = [5] :=
  ⟨rfl, by decide, rfl⟩
